import Mathlib

/-!
# MicroMegas avalanche simulation: the orchestration loop of `simulation.cpp`

Shallow embedding of `main` in `src/simulation.cpp`.

* `Double_t` values are modelled by the rational number a finite binary64
  value denotes; comparisons of such values are exact.  Every place where the
  program rounds (a decimal literal that is not a binary fraction, an
  arithmetic operation) goes through a rounding operator `fl : ℚ → ℚ`, which
  is a parameter of the model.  Facts that need properties of rounding state
  them through `RoundsToNearest`.
* `int` / `Int_t` values are modelled by `Int`; the counters of the loop stay
  between `0` and `nEvents`, so no machine overflow is reachable.
* The Garfield++ and ROOT objects (`ComponentElmer`, `AvalancheMicroscopic`,
  `TRandom3`, `TTree`) are external libraries.  What they return to `main` is
  input of the model (`Draw`), what `main` sends to them is recorded in the
  state (`State.calls`, `State.tree`).
-/

namespace MicroMegas

/-! ## Rounding -/

/-- Properties of round-to-nearest on finite binary64 values that the numeric
facts below rely on: rounding is monotone, idempotent, odd, and exact on
integers of magnitude at most `2^53`. -/
structure RoundsToNearest (fl : ℚ → ℚ) : Prop where
  mono : ∀ a b : ℚ, a ≤ b → fl a ≤ fl b
  idem : ∀ a : ℚ, fl (fl a) = fl a
  odd : ∀ a : ℚ, fl (-a) = -fl a
  exactInt : ∀ n : ℤ, |n| ≤ 2 ^ 53 → fl (n : ℚ) = (n : ℚ)

/-! ## Data exchanged with the transport engine -/

/-- One record of `GetElectronEndpoint(j, xi, yi, zi, ti, ei, xf, yf, zf, tf, ef, stat)`:
the values the engine writes into the eleven output arguments. -/
structure Endpoint where
  xi : ℚ
  yi : ℚ
  zi : ℚ
  ti : ℚ
  ei : ℚ
  xf : ℚ
  yf : ℚ
  zf : ℚ
  tf : ℚ
  ef : ℚ
  stat : ℤ
deriving DecidableEq

/-- Modelled from the spec: the Transport Engine boundary (spec section 6).  The
result of one `AvalancheElectron` call as seen by `main`: the electron and
ion counts of `GetAvalancheSize(ne, ni)` and the indexable endpoint records;
`GetNumberOfElectronEndpoints()` is the number of records and
`GetElectronEndpoint(j, ..)` yields record `j`. -/
structure Cascade where
  ne : ℤ
  ni : ℤ
  endpoints : List Endpoint
deriving DecidableEq

/-- The arguments of one `AvalancheElectron(x, y, z, t, e, dx, dy, dz)` call. -/
structure Seed where
  x : ℚ
  y : ℚ
  z : ℚ
  t : ℚ
  e : ℚ
  dx : ℚ
  dy : ℚ
  dz : ℚ
deriving DecidableEq

/-- Everything the environment supplies during one pass through the loop body:
the two `rand->Rndm()` values (`rx` is the one used in the x expression, `ry`
the one in the y expression), the cascade the engine produces, and the
indeterminate contents of the uninitialised locals `xi .. stat` (line 171-173). -/
structure Draw where
  rx : ℚ
  ry : ℚ
  cascade : Cascade
  locals : Endpoint
deriving DecidableEq

/-! ## Program state -/

/-- The eleven `std::vector` buffers bound to the tree branches (lines 52-54). -/
structure Buffers where
  status : List ℤ
  x0 : List ℚ
  y0 : List ℚ
  z0 : List ℚ
  e0 : List ℚ
  t0 : List ℚ
  x1 : List ℚ
  y1 : List ℚ
  z1 : List ℚ
  e1 : List ℚ
  t1 : List ℚ
deriving DecidableEq

/-- One entry of `avalancheTree`: what `tree->Fill()` copies from the bound
variables `nele`, `nelep` and the eleven vectors. -/
structure Row where
  nele : ℤ
  nelep : ℤ
  cols : Buffers
deriving DecidableEq

/-- Variables of `main` that live across loop iterations, the tree contents, and
the log of `AvalancheElectron` invocations. -/
structure State where
  i : ℤ
  avalanchesPassed : ℤ
  notPassed : Bool
  nele : ℤ
  nelep : ℤ
  buf : Buffers
  tree : List Row
  calls : List Seed
deriving DecidableEq

/-! ## Constants of `main` -/

/-- Line 31: `const int nEvents = 100;`.  The loop below takes the number of
requested events as an argument; this is the value `main` uses. -/
def nEvents : ℤ := 100

/-- Line 36: `const double lattice_const = 0.00625;`. -/
def lattice_const (fl : ℚ → ℚ) : ℚ := fl (625 / 100000)

/-- Line 158: the literal `0.01`, the start height. -/
def startHeight (fl : ℚ → ℚ) : ℚ := fl (1 / 100)

/-- Line 190: the literal `-0.017`, the cut on the final z position. -/
def zCut (fl : ℚ → ℚ) : ℚ := fl (-(17 / 1000))

/-! ## The loop body -/

/-- Line 158, one lateral coordinate: `(2.*rand->Rndm() - 1.) * lattice_const`. -/
def lateral (fl : ℚ → ℚ) (r : ℚ) : ℚ :=
  fl (fl (fl (2 * r) - 1) * lattice_const fl)

/-- Lines 158-164: the seed handed to `AvalancheElectron`. -/
def seedOf (fl : ℚ → ℚ) (rx ry : ℚ) : Seed :=
  { x := lateral fl rx, y := lateral fl ry, z := startHeight fl,
    t := 0, e := 1, dx := 0, dy := 0, dz := -1 }

/-- Lines 185-187: the eleven `push_back` calls for one endpoint record. -/
def pushEndpoint (b : Buffers) (p : Endpoint) : Buffers :=
  { status := b.status ++ [p.stat],
    x0 := b.x0 ++ [p.xi], y0 := b.y0 ++ [p.yi], z0 := b.z0 ++ [p.zi],
    e0 := b.e0 ++ [p.ei], t0 := b.t0 ++ [p.ti],
    x1 := b.x1 ++ [p.xf], y1 := b.y1 ++ [p.yf], z1 := b.z1 ++ [p.zf],
    e1 := b.e1 ++ [p.ef], t1 := b.t1 ++ [p.tf] }

/-- Lines 182-188: the inner loop over `j = 0 .. np-1`.  Each pass overwrites the
locals with record `j` and pushes them; the result is the buffers and the
locals as they stand after the loop. -/
def extract (b : Buffers) (locals : Endpoint) (ps : List Endpoint) : Buffers × Endpoint :=
  ps.foldl (fun acc p => (pushEndpoint acc.1 p, p)) (b, locals)

/-- Number of endpoint records, `np` of line 175. -/
def Cascade.np (c : Cascade) : ℤ := (c.endpoints.length : ℤ)

/-- Lines 157-195: one pass through the body of the event loop, up to but not
including the `i++` of the `for` statement.  In the accepting branch the
`if (zf < -0.017)` of line 190 updates `avalanchesPassed` and `notPassed`, and
`tree->Fill()` of line 195 appends the bound variables as a row. -/
def body (fl : ℚ → ℚ) (d : Draw) (s : State) : State :=
  let s1 : State := { s with calls := s.calls ++ [seedOf fl d.rx d.ry], nele := d.cascade.ne }
  if d.cascade.np = 1 then
    { s1 with i := s1.i - 1 }
  else
    let ex := extract s1.buf d.locals d.cascade.endpoints
    { s1 with
      nelep := d.cascade.np
      buf := ex.1
      avalanchesPassed :=
        if ex.2.zf < zCut fl then s1.avalanchesPassed + 1 else s1.avalanchesPassed
      notPassed := if ex.2.zf < zCut fl then false else s1.notPassed
      tree := s1.tree ++ [{ nele := s1.nele, nelep := d.cascade.np, cols := ex.1 }] }

/-- One full iteration: the body followed by the `i++` of line 156 (which also
runs after `continue`).  Maps a loop-head state to the next loop-head state. -/
def iteration (fl : ℚ → ℚ) (d : Draw) (s : State) : State :=
  let s1 := body fl d s
  { s1 with i := s1.i + 1 }

/-- Lines 156-196: the event loop, run against the list of environment responses
`ds`.  It stops when the loop condition `i < nEvents` fails, or, if the
responses are used up first, at the loop head it has reached. -/
def exec (fl : ℚ → ℚ) (nEvents : ℤ) : List Draw → State → State
  | [], s => s
  | d :: ds, s => if s.i < nEvents then exec fl nEvents ds (iteration fl d s) else s

/-- The loop has ended: its condition `i < nEvents` is false. -/
def finished (nEvents : ℤ) (s : State) : Prop := ¬ s.i < nEvents

instance (nEvents : ℤ) (s : State) : Decidable (finished nEvents s) := by
  unfold finished; infer_instance

/-- No buffer holds an element (the vectors as declared on lines 52-54). -/
def Buffers.empty : Buffers :=
  { status := [], x0 := [], y0 := [], z0 := [], e0 := [], t0 := [],
    x1 := [], y1 := [], z1 := [], e1 := [], t1 := [] }

/-- State at the first loop head (lines 50-54, 154-156).  `nele` and `nelep` are
declared without initialiser, so their contents `nele0`, `nelep0` are
indeterminate. -/
def initial (nele0 nelep0 : ℤ) : State :=
  { i := 0, avalanchesPassed := 0, notPassed := true, nele := nele0, nelep := nelep0,
    buf := Buffers.empty, tree := [], calls := [] }

/-- Line 212, the ratio `avalanchesPassed/(double)nEvents`. -/
def transparency (fl : ℚ → ℚ) (nEvents : ℤ) (s : State) : ℚ :=
  fl ((s.avalanchesPassed : ℚ) / (nEvents : ℚ))

/-- Line 212, the printed percentage `avalanchesPassed/(double)nEvents * 100.`. -/
def transparencyPercent (fl : ℚ → ℚ) (nEvents : ℤ) (s : State) : ℚ :=
  fl (transparency fl nEvents s * 100)

/-- An endpoint record filled with one value, for examples. -/
def Endpoint.const (v : ℚ) (st : ℤ) : Endpoint :=
  { xi := v, yi := v, zi := v, ti := v, ei := v,
    xf := v, yf := v, zf := v, tf := v, ef := v, stat := st }

/-! ## Vocabulary for the statements -/

/-- The branch layout of a list of endpoint records: each of the eleven arrays
holds the corresponding field of the records, in order. -/
def columns (ps : List Endpoint) : Buffers :=
  { status := ps.map (fun p => p.stat),
    x0 := ps.map (fun p => p.xi), y0 := ps.map (fun p => p.yi), z0 := ps.map (fun p => p.zi),
    e0 := ps.map (fun p => p.ei), t0 := ps.map (fun p => p.ti),
    x1 := ps.map (fun p => p.xf), y1 := ps.map (fun p => p.yf), z1 := ps.map (fun p => p.zf),
    e1 := ps.map (fun p => p.ef), t1 := ps.map (fun p => p.tf) }

/-- Array-wise concatenation of two sets of buffers. -/
def Buffers.append (a b : Buffers) : Buffers :=
  { status := a.status ++ b.status,
    x0 := a.x0 ++ b.x0, y0 := a.y0 ++ b.y0, z0 := a.z0 ++ b.z0,
    e0 := a.e0 ++ b.e0, t0 := a.t0 ++ b.t0,
    x1 := a.x1 ++ b.x1, y1 := a.y1 ++ b.y1, z1 := a.z1 ++ b.z1,
    e1 := a.e1 ++ b.e1, t1 := a.t1 ++ b.t1 }

/-- The eleven arrays all have length `n`. -/
def Buffers.allLength (b : Buffers) (n : ℕ) : Prop :=
  b.status.length = n ∧ b.x0.length = n ∧ b.y0.length = n ∧ b.z0.length = n ∧
  b.e0.length = n ∧ b.t0.length = n ∧ b.x1.length = n ∧ b.y1.length = n ∧
  b.z1.length = n ∧ b.e1.length = n ∧ b.t1.length = n

/-- The draw passes the test of line 177, that is `np == 1` is false. -/
def accepts (d : Draw) : Bool := decide (d.cascade.np ≠ 1)

/-- The cascades of the accepted events of a run that asks for `nEvents` events
and receives the responses `ds`: the first `nEvents` cascades whose endpoint
count is not 1, in order. -/
def acceptedCascades (nEvents : ℤ) (ds : List Draw) : List Cascade :=
  ((ds.filter accepts).take nEvents.toNat).map (fun d => d.cascade)

/-- Rows produced from buffers `b` by accepting the cascades `cs` one after the
other, the buffers growing by each cascade's records. -/
def rowsFrom (b : Buffers) : List Cascade → List Row
  | [] => []
  | c :: cs =>
    { nele := c.ne, nelep := c.np, cols := b.append (columns c.endpoints) } ::
      rowsFrom (b.append (columns c.endpoints)) cs

/-- The endpoint records of the cascades `cs`, one cascade after the other. -/
def allEndpoints : List Cascade → List Endpoint
  | [] => []
  | c :: cs => c.endpoints ++ allEndpoints cs

/-- Example input: two cascades of two endpoint records each. -/
def twoEvents : List Draw :=
  [ { rx := 0, ry := 0, locals := Endpoint.const 0 0,
      cascade := { ne := 2, ni := 1, endpoints := [Endpoint.const 10 0, Endpoint.const 11 0] } },
    { rx := 0, ry := 0, locals := Endpoint.const 0 0,
      cascade := { ne := 2, ni := 1, endpoints := [Endpoint.const 20 0, Endpoint.const 21 0] } } ]

/-- Example input: the engine produces a cascade without any endpoint record. -/
def emptyCascadeDraw : Draw :=
  { rx := 0, ry := 0, locals := Endpoint.const 0 0,
    cascade := { ne := 0, ni := 0, endpoints := [] } }

/-- Example input: a cascade of `n` copies of the record `Endpoint.const v 0`. -/
def drawOf (n : ℕ) (v : ℚ) : Draw :=
  { rx := 0, ry := 0, locals := Endpoint.const 0 0,
    cascade := { ne := n, ni := 0, endpoints := List.replicate n (Endpoint.const v 0) } }

/-! ## Setup: detection of the gas materials (lines 99-105) -/

/-- Modelled from the spec: one material region of the field map, with the
permittivity and the medium assignment that the Geometry/Field Provider exposes
per material (spec section 6); `ComponentElmer` itself is Garfield++ code. -/
structure Material (M : Type) where
  eps : ℚ
  medium : Option M
deriving DecidableEq

/-- Modelled from the spec: the material table of the field map `fm`. -/
structure FieldMap (M : Type) where
  materials : List (Material M)
deriving DecidableEq

/-- Modelled from the spec: `fm->GetNumberOfMaterials()`, the material count. -/
def FieldMap.GetNumberOfMaterials {M : Type} (fm : FieldMap M) : ℕ :=
  fm.materials.length

/-- Modelled from the spec: `fm->GetPermittivity(i)`, the permittivity of material
`i`; an index out of range yields `-1`. -/
def FieldMap.GetPermittivity {M : Type} (fm : FieldMap M) (i : ℕ) : ℚ :=
  match fm.materials[i]? with
  | some mat => mat.eps
  | none => -1

/-- Modelled from the spec: `fm->SetMedium(i, m)`, which assigns medium `m` to
material `i` and touches nothing else; an index out of range changes nothing. -/
def FieldMap.SetMedium {M : Type} (fm : FieldMap M) (i : ℕ) (m : M) : FieldMap M :=
  match fm.materials[i]? with
  | some mat => { materials := fm.materials.set i { mat with medium := some m } }
  | none => fm

/-- Line 102: the test `fabs(fm->GetPermittivity(i) - 1.) < 1e-3` on a
permittivity value. -/
def isGas (fl : ℚ → ℚ) (eps : ℚ) : Prop := |fl (eps - 1)| < fl (1 / 1000)

instance (fl : ℚ → ℚ) (eps : ℚ) : Decidable (isGas fl eps) := by
  unfold isGas; infer_instance

/-- Lines 100-105: `nMaterials` is read once, then the loop over
`i = 0 .. nMaterials-1` assigns `gas` to each material that passes the test. -/
def assignGas {M : Type} (fl : ℚ → ℚ) (gas : M) (fm : FieldMap M) : FieldMap M :=
  (List.range fm.GetNumberOfMaterials).foldl
    (fun acc i => if isGas fl (acc.GetPermittivity i) then acc.SetMedium i gas else acc) fm

/-- Subtracting 1 from a binary64 value between 1/2 and 2 is exact (Sterbenz),
and 1/2 is a binary64 value. -/
structure ExactNearOne (fl : ℚ → ℚ) : Prop where
  sub_one : ∀ a : ℚ, fl a = a → 1 / 2 ≤ a → a ≤ 2 → fl (a - 1) = a - 1
  half : fl (1 / 2) = 1 / 2

/-! ## Lemmas on the inner loop -/

theorem extract_fst (ps : List Endpoint) (b : Buffers) (l : Endpoint) :
    (extract b l ps).1 = b.append (columns ps) := by
  induction ps generalizing b l with
  | nil => cases b; simp [extract, Buffers.append, columns]
  | cons p ps ih =>
    have h := ih (pushEndpoint b p) p
    simp only [extract, List.foldl_cons] at h ⊢
    rw [h]
    cases b
    simp [Buffers.append, columns, pushEndpoint]

theorem extract_snd (ps : List Endpoint) (b : Buffers) (l : Endpoint) :
    (extract b l ps).2 = ps.getLast?.getD l := by
  induction ps generalizing b l with
  | nil => simp [extract]
  | cons p ps ih =>
    have h := ih (pushEndpoint b p) p
    simp only [extract, List.foldl_cons] at h ⊢
    rw [h]
    cases ps with
    | nil => simp
    | cons q qs => simp [List.getLast?_cons_cons, List.getLast?_eq_getLast]

theorem columns_append (ps qs : List Endpoint) :
    columns (ps ++ qs) = (columns ps).append (columns qs) := by
  simp [columns, Buffers.append]

theorem Buffers.empty_append (b : Buffers) : Buffers.empty.append b = b := by
  cases b; simp [Buffers.append, Buffers.empty]

theorem Buffers.append_assoc (a b c : Buffers) :
    (a.append b).append c = a.append (b.append c) := by
  simp [Buffers.append]

theorem columns_allLength (ps : List Endpoint) : (columns ps).allLength ps.length := by
  simp [columns, Buffers.allLength]

/-! ## Lemmas on one iteration -/

theorem iteration_reject (fl : ℚ → ℚ) (d : Draw) (s : State) (h : d.cascade.np = 1) :
    iteration fl d s =
      { s with calls := s.calls ++ [seedOf fl d.rx d.ry], nele := d.cascade.ne } := by
  cases s
  simp [iteration, body, h]

theorem iteration_accept (fl : ℚ → ℚ) (d : Draw) (s : State) (h : d.cascade.np ≠ 1) :
    iteration fl d s =
      { i := s.i + 1,
        avalanchesPassed :=
          if (d.cascade.endpoints.getLast?.getD d.locals).zf < zCut fl
          then s.avalanchesPassed + 1 else s.avalanchesPassed,
        notPassed :=
          if (d.cascade.endpoints.getLast?.getD d.locals).zf < zCut fl
          then false else s.notPassed,
        nele := d.cascade.ne,
        nelep := d.cascade.np,
        buf := s.buf.append (columns d.cascade.endpoints),
        tree := s.tree ++ [{ nele := d.cascade.ne, nelep := d.cascade.np,
                              cols := s.buf.append (columns d.cascade.endpoints) }],
        calls := s.calls ++ [seedOf fl d.rx d.ry] } := by
  cases s
  simp [iteration, body, h, extract_fst, extract_snd]

/-! ## Lemmas on the event loop -/

theorem exec_induct (fl : ℚ → ℚ) (nEvents : ℤ) (P : State → Prop)
    (step : ∀ d s, s.i < nEvents → P s → P (iteration fl d s)) :
    ∀ (ds : List Draw) (s : State), P s → P (exec fl nEvents ds s) := by
  intro ds
  induction ds with
  | nil => intro s hs; simpa [exec] using hs
  | cons d ds ih =>
    intro s hs
    by_cases hlt : s.i < nEvents
    · simp only [exec, hlt, if_true]
      exact ih _ (step d s hlt hs)
    · simpa [exec, hlt] using hs

theorem exec_snoc (fl : ℚ → ℚ) (nEvents : ℤ) (ds : List Draw) (d : Draw) (s : State) :
    exec fl nEvents (ds ++ [d]) s =
      if (exec fl nEvents ds s).i < nEvents then iteration fl d (exec fl nEvents ds s)
      else exec fl nEvents ds s := by
  induction ds generalizing s with
  | nil => simp [exec]
  | cons e es ih =>
    by_cases hlt : s.i < nEvents
    · simp [exec, hlt, ih]
    · simp [exec, hlt]

theorem exec_done (fl : ℚ → ℚ) (nEvents : ℤ) (ds : List Draw) (s : State)
    (h : ¬ s.i < nEvents) : exec fl nEvents ds s = s := by
  cases ds with
  | nil => rfl
  | cons d ds => simp [exec, h]

theorem iteration_i (fl : ℚ → ℚ) (d : Draw) (s : State) :
    (iteration fl d s).i = if d.cascade.np = 1 then s.i else s.i + 1 := by
  by_cases h : d.cascade.np = 1
  · simp [iteration_reject fl d s h, h]
  · simp [iteration_accept fl d s h, h]

theorem exec_tree (fl : ℚ → ℚ) (nEvents : ℤ) (ds : List Draw) (s : State) :
    (exec fl nEvents ds s).tree =
      s.tree ++ rowsFrom s.buf
        (((ds.filter accepts).take (nEvents - s.i).toNat).map (fun d => d.cascade)) := by
  induction ds generalizing s with
  | nil => simp [exec, rowsFrom]
  | cons d ds ih =>
    by_cases hlt : s.i < nEvents
    · simp only [exec, hlt, if_true]
      rw [ih]
      by_cases h : d.cascade.np = 1
      · have hacc : accepts d = false := by simp [accepts, h]
        simp [iteration_reject fl d s h, List.filter_cons, hacc]
      · have hacc : accepts d = true := by simp [accepts, h]
        obtain ⟨k, hk⟩ : ∃ k : ℕ, (nEvents - s.i).toNat = k + 1 :=
          ⟨(nEvents - s.i).toNat - 1, by omega⟩
        have hk2 : (nEvents - (s.i + 1)).toNat = k := by omega
        simp [iteration_accept fl d s h, List.filter_cons, hacc, hk, hk2, rowsFrom]
    · have hz : (nEvents - s.i).toNat = 0 := by omega
      simp [exec, hlt, hz, rowsFrom]

theorem exec_i_le (fl : ℚ → ℚ) (nEvents : ℤ) (ds : List Draw) (s : State)
    (h : s.i ≤ nEvents) : (exec fl nEvents ds s).i ≤ nEvents := by
  refine exec_induct fl nEvents (fun t => t.i ≤ nEvents) ?_ ds s h
  intro d t hlt _
  show (iteration fl d t).i ≤ nEvents
  rw [iteration_i]
  split <;> omega

theorem exec_rows_sub_i (fl : ℚ → ℚ) (nEvents : ℤ) (ds : List Draw) (s : State) :
    ((exec fl nEvents ds s).tree.length : ℤ) - (exec fl nEvents ds s).i =
      (s.tree.length : ℤ) - s.i := by
  refine exec_induct fl nEvents
    (fun t => (t.tree.length : ℤ) - t.i = (s.tree.length : ℤ) - s.i) ?_ ds s rfl
  intro d t _ ht
  by_cases h : d.cascade.np = 1
  · simpa [iteration_reject fl d t h] using ht
  · simp only [iteration_accept fl d t h, List.length_append, List.length_singleton]
    push_cast
    omega

theorem exec_passed (fl : ℚ → ℚ) (nEvents : ℤ) (ds : List Draw) (s : State)
    (h : 0 ≤ s.avalanchesPassed ∧ s.avalanchesPassed ≤ s.i) :
    0 ≤ (exec fl nEvents ds s).avalanchesPassed ∧
      (exec fl nEvents ds s).avalanchesPassed ≤ (exec fl nEvents ds s).i := by
  refine exec_induct fl nEvents
    (fun t => 0 ≤ t.avalanchesPassed ∧ t.avalanchesPassed ≤ t.i) ?_ ds s h
  intro d t _ ht
  by_cases h : d.cascade.np = 1
  · simpa [iteration_reject fl d t h] using ht
  · simp only [iteration_accept fl d t h]
    split <;> omega

theorem exec_calls (fl : ℚ → ℚ) (nEvents : ℤ) (ds : List Draw) (s : State) :
    ∃ m : ℕ, m ≤ ds.length ∧
      (exec fl nEvents ds s).calls.length = s.calls.length + m ∧
      (exec fl nEvents ds s).i = s.i + ((ds.take m).countP accepts : ℤ) := by
  induction ds generalizing s with
  | nil => exact ⟨0, by simp [exec]⟩
  | cons d ds ih =>
    by_cases hlt : s.i < nEvents
    · obtain ⟨m, hm, hc, hi⟩ := ih (iteration fl d s)
      refine ⟨m + 1, by simpa using hm, ?_, ?_⟩
      · simp only [exec, hlt, if_true, hc]
        by_cases h : d.cascade.np = 1
        · simp [iteration_reject fl d s h]; omega
        · simp [iteration_accept fl d s h]; omega
      · simp only [exec, hlt, if_true, hi, List.take_succ_cons, List.countP_cons]
        by_cases h : d.cascade.np = 1
        · simp [iteration_i, accepts, h]
        · simp [iteration_i, accepts, h]; omega
    · exact ⟨0, by simp [exec, hlt]⟩

theorem exec_finished (fl : ℚ → ℚ) (nEvents : ℤ) (ds : List Draw) (s : State)
    (h : (nEvents - s.i).toNat ≤ ds.countP accepts) :
    finished nEvents (exec fl nEvents ds s) := by
  induction ds generalizing s with
  | nil =>
    simp only [List.countP_nil, Nat.le_zero] at h
    simp only [exec, finished]
    omega
  | cons d ds ih =>
    by_cases hlt : s.i < nEvents
    · simp only [exec, hlt, if_true]
      apply ih
      rw [iteration_i]
      rw [List.countP_cons] at h
      by_cases hnp : d.cascade.np = 1
      · simp [accepts, hnp] at h
        simp [hnp, h]
      · simp [accepts, hnp] at h
        simp only [hnp, if_false]
        omega
    · simp [exec, hlt, finished]

/-! ## Lemmas on the rows -/

theorem rowsFrom_counts (b : Buffers) (cs : List Cascade) :
    (rowsFrom b cs).map (fun r => (r.nele, r.nelep)) = cs.map (fun c => (c.ne, c.np)) := by
  induction cs generalizing b with
  | nil => simp [rowsFrom]
  | cons c cs ih => simp [rowsFrom, ih]

theorem rowsFrom_nelep (b : Buffers) (cs : List Cascade) :
    (rowsFrom b cs).map (fun r => r.nelep) = cs.map (fun c => c.np) := by
  induction cs generalizing b with
  | nil => simp [rowsFrom]
  | cons c cs ih => simp [rowsFrom, ih]

theorem rowsFrom_get (cs : List Cascade) (b : Buffers) (k : ℕ) (r : Row)
    (h : (rowsFrom b cs)[k]? = some r) :
    ∃ c, cs[k]? = some c ∧ r.nele = c.ne ∧ r.nelep = c.np ∧
      r.cols = b.append (columns (allEndpoints (cs.take (k + 1)))) := by
  induction cs generalizing b k with
  | nil => simp [rowsFrom] at h
  | cons c cs ih =>
    cases k with
    | zero =>
      simp only [rowsFrom, List.getElem?_cons_zero, Option.some.injEq] at h
      subst h
      exact ⟨c, by simp [allEndpoints]⟩
    | succ k =>
      simp only [rowsFrom, List.getElem?_cons_succ] at h
      obtain ⟨c', hc', h1, h2, h3⟩ := ih _ _ h
      refine ⟨c', by simpa using hc', h1, h2, ?_⟩
      rw [h3, Buffers.append_assoc, ← columns_append]
      simp [allEndpoints]

theorem allEndpoints_length (cs : List Cascade) :
    ((allEndpoints cs).length : ℤ) = (cs.map (fun c => c.np)).sum := by
  induction cs with
  | nil => simp [allEndpoints]
  | cons c cs ih => simp [allEndpoints, Cascade.np, ih]

theorem exec_tree_initial (fl : ℚ → ℚ) (nEvents : ℤ) (ds : List Draw) (nele0 nelep0 : ℤ) :
    (exec fl nEvents ds (initial nele0 nelep0)).tree =
      rowsFrom Buffers.empty (acceptedCascades nEvents ds) := by
  rw [exec_tree]
  simp [initial, acceptedCascades]

theorem mem_acceptedCascades (nEvents : ℤ) (ds : List Draw) (c : Cascade)
    (h : c ∈ acceptedCascades nEvents ds) : ∃ d ∈ ds, d.cascade = c ∧ d.cascade.np ≠ 1 := by
  simp only [acceptedCascades, List.mem_map] at h
  obtain ⟨d, hd, rfl⟩ := h
  have hf := List.mem_of_mem_take hd
  rw [List.mem_filter] at hf
  exact ⟨d, hf.1, rfl, by simpa [accepts] using hf.2⟩

/-! ## The claims on the event loop -/

/-- C1, evaluated on the code: when the first two cascades of a run have two
endpoint records each, the first row has `nelep = 2` and arrays of length 2,
and the second row has `nelep = 2` but arrays of length 4, because the vectors
are not emptied after `tree->Fill()`. -/
theorem c1_second_row_arrays_longer_than_nelep :
    (exec id nEvents twoEvents (initial 0 0)).tree.map
        (fun r => (r.nelep, r.cols.status.length, r.cols.x0.length, r.cols.t1.length)) =
      [(2, 2, 2, 2), (2, 4, 4, 4)] := by
  decide

/-- C2, counterexample: when the engine produces a cascade with zero endpoint
records, the run stores a row for it, so not every stored row has `nelep > 1`. -/
theorem c2_empty_cascade_is_stored :
    ¬ ∀ r ∈ (exec id nEvents [emptyCascadeDraw] (initial 0 0)).tree, 1 < r.nelep := by
  intro h
  have h0 := h { nele := 0, nelep := 0, cols := Buffers.empty } (by decide)
  exact absurd h0 (by decide)

/-- C2, amended: for every sequence of cascades in which each cascade has at
least one endpoint record, every row appended to the store has `nelep > 1`. -/
theorem c2_rows_have_more_than_one_endpoint (fl : ℚ → ℚ) (nEvents : ℤ) (ds : List Draw)
    (nele0 nelep0 : ℤ) (hpos : ∀ d ∈ ds, d.cascade.endpoints ≠ []) :
    ∀ r ∈ (exec fl nEvents ds (initial nele0 nelep0)).tree, 1 < r.nelep := by
  intro r hr
  rw [exec_tree_initial] at hr
  obtain ⟨k, hget⟩ := List.getElem?_of_mem hr
  obtain ⟨c, hc, -, hnp, -⟩ := rowsFrom_get _ _ _ _ hget
  obtain ⟨d, hd, hdc, hne⟩ := mem_acceptedCascades nEvents ds c (List.getElem?_mem hc)
  have hlen : d.cascade.endpoints.length ≠ 0 := by
    simpa [List.length_eq_zero] using hpos d hd
  rw [hnp, ← hdc]
  simp only [Cascade.np] at hne ⊢
  omega

/-- Witness for C2 amended: the two-event example run. -/
theorem c2_rows_have_more_than_one_endpoint_witness :
    (∀ d ∈ twoEvents, d.cascade.endpoints ≠ []) ∧
      ∀ r ∈ (exec id 2 twoEvents (initial 0 0)).tree, 1 < r.nelep :=
  ⟨by decide, c2_rows_have_more_than_one_endpoint id 2 twoEvents 0 0 (by decide)⟩

/-- C3: an iteration whose cascade has exactly one endpoint record leaves the
rows, the buffers, the pass counter and the event counter as they were; the
rows of a run carry, in order, the electron and endpoint counts of the
cascades whose endpoint count is not 1; and when the engine produces 1, 1, 1
and then 5 endpoint records, the first row is the one of the 5-endpoint
cascade, holding exactly its records. -/
theorem c3_single_endpoint_draw_records_nothing (fl : ℚ → ℚ) (nEvents : ℤ)
    (nele0 nelep0 : ℤ) (s : State) (ds rest : List Draw) (d1 d2 d3 d5 : Draw)
    (h1 : d1.cascade.np = 1) (h2 : d2.cascade.np = 1) (h3 : d3.cascade.np = 1)
    (h5 : d5.cascade.np = 5) :
    ((iteration fl d1 s).tree = s.tree ∧ (iteration fl d1 s).buf = s.buf ∧
      (iteration fl d1 s).avalanchesPassed = s.avalanchesPassed ∧
      (iteration fl d1 s).i = s.i) ∧
    (exec fl nEvents ds (initial nele0 nelep0)).tree.map (fun r => (r.nele, r.nelep)) =
      (acceptedCascades nEvents ds).map (fun c => (c.ne, c.np)) ∧
    (1 ≤ nEvents →
      (exec fl nEvents (d1 :: d2 :: d3 :: d5 :: rest) (initial nele0 nelep0)).tree.head? =
        some { nele := d5.cascade.ne, nelep := 5, cols := columns d5.cascade.endpoints }) ∧
    (exec fl 1 (d1 :: d2 :: d3 :: d5 :: rest) (initial nele0 nelep0)).tree =
      [{ nele := d5.cascade.ne, nelep := 5, cols := columns d5.cascade.endpoints }] ∧
    (exec fl 1 (d1 :: d2 :: d3 :: d5 :: rest) (initial nele0 nelep0)).i = 1 := by
  have a1 : accepts d1 = false := by simp [accepts, h1]
  have a2 : accepts d2 = false := by simp [accepts, h2]
  have a3 : accepts d3 = false := by simp [accepts, h3]
  have a5 : accepts d5 = true := by simp [accepts, h5]
  have n5 : d5.cascade.np ≠ 1 := by omega
  refine ⟨?_, ?_, ?_, ?_, ?_⟩
  · simp [iteration_reject fl d1 s h1]
  · rw [exec_tree_initial, rowsFrom_counts]
  · intro hN
    obtain ⟨k, hk⟩ : ∃ k : ℕ, nEvents.toNat = k + 1 := ⟨nEvents.toNat - 1, by omega⟩
    rw [exec_tree_initial]
    simp [acceptedCascades, List.filter_cons, a1, a2, a3, a5, hk, rowsFrom, h5,
      Buffers.empty_append]
  · rw [exec_tree_initial]
    simp [acceptedCascades, List.filter_cons, a1, a2, a3, a5, rowsFrom, h5,
      Buffers.empty_append]
  · have h4 : (iteration fl d5 (iteration fl d3 (iteration fl d2 (iteration fl d1
        (initial nele0 nelep0))))).i = 1 := by
      simp [initial, iteration_i, h1, h2, h3, n5]
    have e1 : (iteration fl d1 (initial nele0 nelep0)).i = 0 := by
      simp [initial, iteration_i, h1]
    have e2 : (iteration fl d2 (iteration fl d1 (initial nele0 nelep0))).i = 0 := by
      simp [initial, iteration_i, h1, h2]
    have e3 : (iteration fl d3 (iteration fl d2 (iteration fl d1
        (initial nele0 nelep0)))).i = 0 := by
      simp [initial, iteration_i, h1, h2, h3]
    have e0 : (initial nele0 nelep0).i = 0 := rfl
    simp only [exec, e0, e1, e2, e3, Int.zero_lt_one, if_true]
    rw [exec_done fl 1 rest _ (by omega), h4]

/-- Witness for C3: three one-record cascades followed by a five-record one. -/
theorem c3_single_endpoint_draw_records_nothing_witness :
    (exec id 1 [drawOf 1 0, drawOf 1 0, drawOf 1 0, drawOf 5 7] (initial 0 0)).tree =
      [{ nele := 5, nelep := 5, cols := columns (List.replicate 5 (Endpoint.const 7 0)) }] :=
  (c3_single_endpoint_draw_records_nothing id 1 0 0 (initial 0 0) [] [] (drawOf 1 0)
    (drawOf 1 0) (drawOf 1 0) (drawOf 5 7) (by decide) (by decide) (by decide)
    (by decide)).2.2.2.1

/-- C4: for `nEvents ≥ 0`, the event counter does not decrease from one loop
head to the next; a run asking for 0 events stores no row and never invokes
the engine; the loop ends as soon as the engine has produced `nEvents`
cascades whose endpoint count is not 1; and whenever the loop has ended the
store holds exactly `nEvents` rows and the number of engine invocations is
`nEvents` plus the number of single-endpoint cascades among the cascades
consumed. -/
theorem c4_store_has_nEvents_rows (fl : ℚ → ℚ) (nEvents : ℤ) (ds : List Draw)
    (nele0 nelep0 : ℤ) (hN : 0 ≤ nEvents) :
    (∀ (d : Draw) (s : State), s.i ≤ (iteration fl d s).i) ∧
    (nEvents = 0 →
      (exec fl nEvents ds (initial nele0 nelep0)).tree = [] ∧
      (exec fl nEvents ds (initial nele0 nelep0)).calls = []) ∧
    (nEvents.toNat ≤ ds.countP accepts →
      finished nEvents (exec fl nEvents ds (initial nele0 nelep0))) ∧
    (finished nEvents (exec fl nEvents ds (initial nele0 nelep0)) →
      ((exec fl nEvents ds (initial nele0 nelep0)).tree.length : ℤ) = nEvents ∧
      ((exec fl nEvents ds (initial nele0 nelep0)).calls.length : ℤ) =
        nEvents +
          ((ds.take (exec fl nEvents ds (initial nele0 nelep0)).calls.length).countP
            (fun d => decide (d.cascade.np = 1)) : ℤ)) := by
  refine ⟨?_, ?_, ?_, ?_⟩
  · intro d s
    rw [iteration_i]
    split <;> omega
  · intro h0
    have hd : exec fl nEvents ds (initial nele0 nelep0) = initial nele0 nelep0 :=
      exec_done fl nEvents ds _ (by simp [initial, h0])
    rw [hd]
    simp [initial]
  · intro hc
    apply exec_finished
    simpa [initial] using hc
  · intro hfin
    have hle := exec_i_le fl nEvents ds (initial nele0 nelep0) (by simpa [initial] using hN)
    have hi : (exec fl nEvents ds (initial nele0 nelep0)).i = nEvents := by
      unfold finished at hfin
      omega
    have hrows := exec_rows_sub_i fl nEvents ds (initial nele0 nelep0)
    obtain ⟨m, hm, hcalls, hacc⟩ := exec_calls fl nEvents ds (initial nele0 nelep0)
    have e1 : (initial nele0 nelep0).i = 0 := rfl
    have e2 : (initial nele0 nelep0).tree.length = 0 := rfl
    have e3 : (initial nele0 nelep0).calls.length = 0 := rfl
    rw [e1, e2] at hrows
    rw [e3, Nat.zero_add] at hcalls
    rw [e1] at hacc
    refine ⟨by omega, ?_⟩
    rw [hcalls]
    have hsplit := List.length_eq_countP_add_countP accepts (ds.take m)
    have hlen : (ds.take m).length = m := by simp [List.length_take, hm]
    have hrej : (ds.take m).countP (fun d => decide (d.cascade.np = 1)) =
        (ds.take m).countP (fun a => decide ¬accepts a = true) := by
      apply List.countP_congr
      intro d _
      simp [accepts]
    rw [hrej]
    omega

/-- Witness for C4: a run of two events with two accepted cascades. -/
theorem c4_store_has_nEvents_rows_witness :
    ((exec id 2 twoEvents (initial 0 0)).tree.length : ℤ) = 2 :=
  ((c4_store_has_nEvents_rows id 2 twoEvents 0 0 (by decide)).2.2.2 (by decide)).1

/-- C6: for an accepted event with at least two endpoint records whose last
enumerated record is `p`, the pass counter grows by exactly one when `p.zf` is
strictly below the cut of line 190, which is the binary64 value of the literal
`-0.017` (the rational -17/1000 under exact arithmetic), and stays as it is
otherwise; any other cascade with at least two records and the same last
record gives the same pass counter, whatever its earlier records are. -/
theorem c6_pass_test_uses_last_endpoint (fl : ℚ → ℚ) (d : Draw) (s : State) (p : Endpoint)
    (h2 : 2 ≤ d.cascade.np) (hlast : d.cascade.endpoints.getLast? = some p) :
    (iteration fl d s).avalanchesPassed =
        (if p.zf < zCut fl then s.avalanchesPassed + 1 else s.avalanchesPassed) ∧
    (∀ d' : Draw, 2 ≤ d'.cascade.np → d'.cascade.endpoints.getLast? = some p →
      (iteration fl d' s).avalanchesPassed = (iteration fl d s).avalanchesPassed) ∧
    zCut fl = fl (-(17 / 1000)) ∧
    zCut id = -(17 / 1000) ∧
    (iteration fl d s).avalanchesPassed =
        (if p.zf < fl (-(17 / 1000)) then s.avalanchesPassed + 1 else s.avalanchesPassed) ∧
    (p.zf < fl (-(17 / 1000)) → (iteration fl d s).avalanchesPassed = s.avalanchesPassed + 1) ∧
    (¬ p.zf < fl (-(17 / 1000)) → (iteration fl d s).avalanchesPassed = s.avalanchesPassed) := by
  have key : ∀ e : Draw, 2 ≤ e.cascade.np → e.cascade.endpoints.getLast? = some p →
      (iteration fl e s).avalanchesPassed =
        (if p.zf < zCut fl then s.avalanchesPassed + 1 else s.avalanchesPassed) := by
    intro e he hl
    have hne : e.cascade.np ≠ 1 := by omega
    simp [iteration_accept fl e s hne, hl]
  have hcut : zCut fl = fl (-(17 / 1000)) := rfl
  have hd := key d h2 hlast
  refine ⟨hd, fun d' h2' hl' => (key d' h2' hl').trans hd.symm, hcut, rfl, ?_, ?_, ?_⟩
  · rw [hd, hcut]
  · intro hlt
    rw [hd, hcut, if_pos hlt]
  · intro hge
    rw [hd, hcut, if_neg hge]

/-- Witness for C6: a cascade whose last record ends exactly at -17/1000 while
an earlier record is far below the cut leaves the pass counter at 0, and a
cascade whose last record ends at -18/1000 while an earlier record is above
the cut raises it to 1. -/
theorem c6_pass_test_uses_last_endpoint_witness :
    (iteration id
      { rx := 0, ry := 0, locals := Endpoint.const 0 0,
        cascade := { ne := 2, ni := 0,
                     endpoints := [Endpoint.const (-1) 0, Endpoint.const (-(17 / 1000)) 0] } }
      (initial 0 0)).avalanchesPassed = 0 ∧
    (iteration id
      { rx := 0, ry := 0, locals := Endpoint.const 0 0,
        cascade := { ne := 2, ni := 0,
                     endpoints := [Endpoint.const 0 0, Endpoint.const (-(18 / 1000)) 0] } }
      (initial 0 0)).avalanchesPassed = 1 :=
  ⟨((c6_pass_test_uses_last_endpoint id _ (initial 0 0) (Endpoint.const (-(17 / 1000)) 0)
      (by decide) (by simp)).2.2.2.2.2.2
        (by norm_num [Endpoint.const])).trans rfl,
   ((c6_pass_test_uses_last_endpoint id _ (initial 0 0) (Endpoint.const (-(18 / 1000)) 0)
      (by decide) (by simp)).2.2.2.2.2.1
        (by norm_num [Endpoint.const])).trans (by simp [initial])⟩

/-- C7: at every loop head of every run the pass counter is between 0 and the
event counter; hence, when rounding behaves as round-to-nearest, the loop has
ended and `nEvents > 0`, the reported ratio `avalanchesPassed / nEvents` is in
`[0, 1]` and the printed percentage in `[0, 100]`. -/
theorem c7_pass_counter_bounded (fl : ℚ → ℚ) (nEvents : ℤ) (ds : List Draw)
    (nele0 nelep0 : ℤ) :
    (0 ≤ (exec fl nEvents ds (initial nele0 nelep0)).avalanchesPassed ∧
      (exec fl nEvents ds (initial nele0 nelep0)).avalanchesPassed ≤
        (exec fl nEvents ds (initial nele0 nelep0)).i) ∧
    (RoundsToNearest fl → 0 < nEvents →
      finished nEvents (exec fl nEvents ds (initial nele0 nelep0)) →
      (0 ≤ transparency fl nEvents (exec fl nEvents ds (initial nele0 nelep0)) ∧
        transparency fl nEvents (exec fl nEvents ds (initial nele0 nelep0)) ≤ 1) ∧
      (0 ≤ transparencyPercent fl nEvents (exec fl nEvents ds (initial nele0 nelep0)) ∧
        transparencyPercent fl nEvents (exec fl nEvents ds (initial nele0 nelep0)) ≤ 100)) := by
  have hb := exec_passed fl nEvents ds (initial nele0 nelep0) (by simp [initial])
  refine ⟨hb, ?_⟩
  intro hfl hN _
  have hle := exec_i_le fl nEvents ds (initial nele0 nelep0) (by simp [initial]; omega)
  generalize exec fl nEvents ds (initial nele0 nelep0) = t at hb hle ⊢
  have f0 : fl 0 = 0 := by simpa using hfl.exactInt 0 (by norm_num)
  have f1 : fl 1 = 1 := by simpa using hfl.exactInt 1 (by norm_num)
  have f100 : fl 100 = 100 := by simpa using hfl.exactInt 100 (by norm_num)
  have hNq : (0 : ℚ) < (nEvents : ℚ) := by exact_mod_cast hN
  have hp0 : (0 : ℚ) ≤ (t.avalanchesPassed : ℚ) := by exact_mod_cast hb.1
  have hpN : (t.avalanchesPassed : ℚ) ≤ (nEvents : ℚ) := by exact_mod_cast hb.2.trans hle
  have q0 : (0 : ℚ) ≤ (t.avalanchesPassed : ℚ) / (nEvents : ℚ) := div_nonneg hp0 hNq.le
  have q1 : (t.avalanchesPassed : ℚ) / (nEvents : ℚ) ≤ 1 := (div_le_one hNq).mpr hpN
  have t0 : 0 ≤ transparency fl nEvents t := by
    have := hfl.mono _ _ q0
    rwa [f0] at this
  have t1 : transparency fl nEvents t ≤ 1 := by
    have := hfl.mono _ _ q1
    rwa [f1] at this
  refine ⟨⟨t0, t1⟩, ?_, ?_⟩
  · have := hfl.mono 0 (transparency fl nEvents t * 100) (by positivity)
    rwa [f0] at this
  · have := hfl.mono (transparency fl nEvents t * 100) 100 (by linarith)
    rwa [f100] at this

/-- Identity rounding (exact arithmetic) has the properties of `RoundsToNearest`. -/
theorem roundsToNearest_id : RoundsToNearest id :=
  ⟨fun _ _ h => h, fun _ => rfl, fun _ => rfl, fun _ _ => rfl⟩

/-- Witness for C7: the two-event run under exact arithmetic. -/
theorem c7_pass_counter_bounded_witness :
    0 ≤ transparency id 2 (exec id 2 twoEvents (initial 0 0)) ∧
      transparency id 2 (exec id 2 twoEvents (initial 0 0)) ≤ 1 :=
  ((c7_pass_counter_bounded id 2 twoEvents 0 0).2 roundsToNearest_id (by decide)
    (by decide)).1

/-- C5, evaluated on the code: when the first two cascades of a run have two
endpoint records each, the arrays of the second row start with the records of
the first event; entry 0 of `x0` and of `z1` in the second row is 10, the
value of the first cascade, while record 0 of the second cascade has the
value 20. -/
theorem c5_second_row_starts_with_first_cascade :
    (exec id nEvents twoEvents (initial 0 0)).tree.map (fun r => (r.cols.x0, r.cols.z1)) =
      [([10, 11], [10, 11]), ([10, 11, 20, 21], [10, 11, 20, 21])] := by
  simp [nEvents, twoEvents, exec, iteration, body, extract, pushEndpoint, initial,
    Cascade.np, Endpoint.const, Buffers.empty]

/-- C8: the `k`-th stored row (0-based) holds, in each of its eleven arrays, the
corresponding field of the endpoint records of accepted events 0 through `k`,
one event after the other; the eleven arrays have one common length, which is
the sum of the `nelep` values of rows 0 through `k`. -/
theorem c8_rows_accumulate_all_previous_events (fl : ℚ → ℚ) (nEvents : ℤ) (ds : List Draw)
    (nele0 nelep0 : ℤ) (k : ℕ) (r : Row)
    (h : (exec fl nEvents ds (initial nele0 nelep0)).tree[k]? = some r) :
    r.cols = columns (allEndpoints ((acceptedCascades nEvents ds).take (k + 1))) ∧
    ∃ n : ℕ,
      (n : ℤ) = (((exec fl nEvents ds (initial nele0 nelep0)).tree.take (k + 1)).map
        (fun r => r.nelep)).sum ∧
      r.cols.allLength n := by
  rw [exec_tree_initial] at h ⊢
  obtain ⟨c, -, -, -, hcols⟩ := rowsFrom_get _ _ _ _ h
  rw [Buffers.empty_append] at hcols
  refine ⟨hcols, (allEndpoints ((acceptedCascades nEvents ds).take (k + 1))).length, ?_, ?_⟩
  · rw [allEndpoints_length, List.map_take, List.map_take, rowsFrom_nelep]
  · rw [hcols]
    exact columns_allLength _

/-- Witness for C8: the second row of the two-event run. -/
theorem c8_rows_accumulate_all_previous_events_witness :
    ({ nele := 2, nelep := 2,
       cols := columns [Endpoint.const 10 0, Endpoint.const 11 0,
                        Endpoint.const 20 0, Endpoint.const 21 0] } : Row).cols =
      columns (allEndpoints ((acceptedCascades 2 twoEvents).take (1 + 1))) :=
  (c8_rows_accumulate_all_previous_events id 2 twoEvents 0 0 1
    { nele := 2, nelep := 2,
      cols := columns [Endpoint.const 10 0, Endpoint.const 11 0,
                       Endpoint.const 20 0, Endpoint.const 21 0] }
    (by simp [twoEvents, exec, iteration, body, extract, pushEndpoint, initial, Cascade.np,
      Endpoint.const, Buffers.empty, columns])).1

/-! ## The seed state (lines 158-164) -/

theorem fl_zero {fl : ℚ → ℚ} (hfl : RoundsToNearest fl) : fl 0 = 0 := by
  simpa using hfl.exactInt 0 (by norm_num)

theorem fl_one {fl : ℚ → ℚ} (hfl : RoundsToNearest fl) : fl 1 = 1 := by
  simpa using hfl.exactInt 1 (by norm_num)

theorem fl_two {fl : ℚ → ℚ} (hfl : RoundsToNearest fl) : fl 2 = 2 := by
  simpa using hfl.exactInt 2 (by norm_num)

theorem lattice_const_nonneg {fl : ℚ → ℚ} (hfl : RoundsToNearest fl) :
    0 ≤ lattice_const fl := by
  have := hfl.mono 0 (625 / 100000) (by norm_num)
  rwa [fl_zero hfl] at this

theorem lateral_bounds {fl : ℚ → ℚ} (hfl : RoundsToNearest fl) (r : ℚ)
    (h0 : 0 ≤ r) (h1 : r ≤ 1) :
    -lattice_const fl ≤ lateral fl r ∧ lateral fl r ≤ lattice_const fl := by
  have hL := lattice_const_nonneg hfl
  have a0 : 0 ≤ fl (2 * r) := by
    have := hfl.mono 0 (2 * r) (by linarith)
    rwa [fl_zero hfl] at this
  have a2 : fl (2 * r) ≤ 2 := by
    have := hfl.mono (2 * r) 2 (by linarith)
    rwa [fl_two hfl] at this
  have b0 : -1 ≤ fl (fl (2 * r) - 1) := by
    have := hfl.mono (-1) (fl (2 * r) - 1) (by linarith)
    rwa [hfl.odd, fl_one hfl] at this
  have b1 : fl (fl (2 * r) - 1) ≤ 1 := by
    have := hfl.mono (fl (2 * r) - 1) 1 (by linarith)
    rwa [fl_one hfl] at this
  have hLfix : fl (lattice_const fl) = lattice_const fl := by
    unfold lattice_const
    exact hfl.idem _
  constructor
  · have := hfl.mono (-lattice_const fl) (fl (fl (2 * r) - 1) * lattice_const fl)
      (by nlinarith)
    rwa [hfl.odd, hLfix] at this
  · have := hfl.mono (fl (fl (2 * r) - 1) * lattice_const fl) (lattice_const fl)
      (by nlinarith)
    rwa [hLfix] at this

/-- C9: for draws `r1`, `r2` in `[0, 1]` the seed handed to the engine has
`x = (2*r1 - 1) * L` and `y = (2*r2 - 1) * L` as evaluated in binary64, both
inside `[-L, L]` for `L = lattice_const` (the literal 0.00625), height 0.01,
direction (0, 0, -1), time 0 and energy 1; with exact arithmetic the lateral
coordinates are the rational `(2*r - 1) * 0.00625`; every component other than
x and y is the same for all draws; and this seed is what an iteration with
these draws logs as its engine call. -/
theorem c9_seed_state (fl : ℚ → ℚ) (hfl : RoundsToNearest fl) (r1 r2 : ℚ)
    (h1 : 0 ≤ r1 ∧ r1 ≤ 1) (h2 : 0 ≤ r2 ∧ r2 ≤ 1) :
    (seedOf fl r1 r2).x = fl (fl (fl (2 * r1) - 1) * lattice_const fl) ∧
    (seedOf fl r1 r2).y = fl (fl (fl (2 * r2) - 1) * lattice_const fl) ∧
    lattice_const fl = fl (625 / 100000) ∧
    (seedOf id r1 r2).x = (2 * r1 - 1) * (625 / 100000) ∧
    (seedOf id r1 r2).y = (2 * r2 - 1) * (625 / 100000) ∧
    (-lattice_const fl ≤ (seedOf fl r1 r2).x ∧ (seedOf fl r1 r2).x ≤ lattice_const fl) ∧
    (-lattice_const fl ≤ (seedOf fl r1 r2).y ∧ (seedOf fl r1 r2).y ≤ lattice_const fl) ∧
    (seedOf fl r1 r2).z = fl (1 / 100) ∧
    ((seedOf fl r1 r2).dx = 0 ∧ (seedOf fl r1 r2).dy = 0 ∧ (seedOf fl r1 r2).dz = -1) ∧
    (seedOf fl r1 r2).t = 0 ∧ (seedOf fl r1 r2).e = 1 ∧
    (∀ r1' r2' : ℚ,
      (seedOf fl r1' r2').z = (seedOf fl r1 r2).z ∧
      (seedOf fl r1' r2').dx = (seedOf fl r1 r2).dx ∧
      (seedOf fl r1' r2').dy = (seedOf fl r1 r2).dy ∧
      (seedOf fl r1' r2').dz = (seedOf fl r1 r2).dz ∧
      (seedOf fl r1' r2').t = (seedOf fl r1 r2).t ∧
      (seedOf fl r1' r2').e = (seedOf fl r1 r2).e) ∧
    (∀ (d : Draw) (s : State), d.rx = r1 → d.ry = r2 →
      (iteration fl d s).calls = s.calls ++ [seedOf fl r1 r2]) := by
  refine ⟨rfl, rfl, rfl, ?_, ?_, ?_, ?_, rfl, ⟨rfl, rfl, rfl⟩, rfl, rfl, ?_, ?_⟩
  · simp [seedOf, lateral, lattice_const]
  · simp [seedOf, lateral, lattice_const]
  · exact lateral_bounds hfl r1 h1.1 h1.2
  · exact lateral_bounds hfl r2 h2.1 h2.2
  · intro r1' r2'
    exact ⟨rfl, rfl, rfl, rfl, rfl, rfl⟩
  · intro d s hx hy
    subst hx hy
    by_cases h : d.cascade.np = 1
    · simp [iteration_reject fl d s h]
    · simp [iteration_accept fl d s h]

/-- Witness for C9: the draws 1/4 and 1 under exact arithmetic. -/
theorem c9_seed_state_witness :
    (0 ≤ (1 / 4 : ℚ) ∧ (1 / 4 : ℚ) ≤ 1) ∧
      -lattice_const id ≤ (seedOf id (1 / 4) 1).x ∧
      (seedOf id (1 / 4) 1).x ≤ lattice_const id :=
  ⟨by norm_num,
    (c9_seed_state id roundsToNearest_id (1 / 4) 1 (by norm_num) (by norm_num)).2.2.2.2.2.1⟩

/-! ## Gas-material detection -/

theorem assignGas_upto {M : Type} (fl : ℚ → ℚ) (gas : M) (fm : FieldMap M) (n : ℕ) (j : ℕ) :
    ((List.range n).foldl
        (fun acc i => if isGas fl (acc.GetPermittivity i) then acc.SetMedium i gas else acc)
        fm).materials[j]? =
      if j < n then
        (fm.materials[j]?).map
          (fun mat => { eps := mat.eps,
                        medium := if isGas fl mat.eps then some gas else mat.medium })
      else fm.materials[j]? := by
  induction n generalizing j with
  | zero => simp
  | succ n ih =>
    rw [List.range_succ, List.foldl_append]
    simp only [List.foldl_cons, List.foldl_nil]
    generalize hacc : (List.range n).foldl
      (fun acc i => if isGas fl (acc.GetPermittivity i) then acc.SetMedium i gas else acc)
      fm = acc at ih
    have hn : acc.materials[n]? = fm.materials[n]? := by simpa using ih n
    cases hm : fm.materials[n]? with
    | none =>
      have hperm : acc.SetMedium n gas = acc := by simp [FieldMap.SetMedium, hn, hm]
      have hres : (if isGas fl (acc.GetPermittivity n) then acc.SetMedium n gas else acc) = acc := by
        rw [hperm]; simp
      rw [hres, ih j]
      by_cases hj : j < n
      · simp [hj, Nat.lt_succ_of_lt hj]
      · by_cases hjn : j = n
        · subst hjn; simp [hm]
        · have : ¬ j < n + 1 := by omega
          simp [hj, this]
    | some mat =>
      have hperm : acc.GetPermittivity n = mat.eps := by
        simp [FieldMap.GetPermittivity, hn, hm]
      have hlen : n < acc.materials.length := by
        have := hn.trans hm
        exact (List.getElem?_eq_some_iff.mp this).1
      rw [hperm]
      by_cases hg : isGas fl mat.eps
      · simp only [hg, if_true, FieldMap.SetMedium, hn, hm, List.getElem?_set]
        by_cases hjn : n = j
        · subst hjn
          simp [hlen, hm, hg]
        · have hne : ¬ (n = j) := hjn
          simp only [hne, if_false, ih j]
          by_cases hj : j < n
          · simp [hj, Nat.lt_succ_of_lt hj]
          · have : ¬ j < n + 1 := by omega
            simp [hj, this]
      · simp only [hg, if_false, ih j]
        by_cases hj : j < n
        · simp [hj, Nat.lt_succ_of_lt hj]
        · by_cases hjn : j = n
          · subst hjn
            simp [hm, hg]
          · have : ¬ j < n + 1 := by omega
            simp [hj, this]

theorem assignGas_materials {M : Type} (fl : ℚ → ℚ) (gas : M) (fm : FieldMap M) :
    (assignGas fl gas fm).materials =
      fm.materials.map
        (fun mat => { eps := mat.eps,
                      medium := if isGas fl mat.eps then some gas else mat.medium }) := by
  apply List.ext_getElem?
  intro j
  unfold assignGas FieldMap.GetNumberOfMaterials
  rw [assignGas_upto, List.getElem?_map]
  by_cases hj : j < fm.materials.length
  · simp [hj]
  · have hnone : fm.materials[j]? = none := List.getElem?_eq_none (by omega)
    simp [hj, hnone]

theorem isGas_iff_exact {fl : ℚ → ℚ} (hfl : RoundsToNearest fl) (hex : ExactNearOne fl)
    (e : ℚ) (he : fl e = e) : isGas fl e ↔ |e - 1| < fl (1 / 1000) := by
  have t1 : fl (1 / 1000) ≤ 1 / 2 := by
    have := hfl.mono (1 / 1000) (1 / 2) (by norm_num)
    rwa [hex.half] at this
  unfold isGas
  by_cases hlo : 1 / 2 ≤ e
  · by_cases hhi : e ≤ 2
    · rw [hex.sub_one e he hlo hhi]
    · have h1 : 1 ≤ fl (e - 1) := by
        have := hfl.mono 1 (e - 1) (by linarith)
        rwa [fl_one hfl] at this
      have ha : 1 ≤ |fl (e - 1)| := h1.trans (le_abs_self _)
      have hb : 1 ≤ |e - 1| := le_trans (by linarith) (le_abs_self _)
      constructor
      · intro h; linarith
      · intro h; linarith
  · have h1 : fl (e - 1) ≤ -(1 / 2) := by
      have := hfl.mono (e - 1) (-(1 / 2)) (by linarith)
      rwa [hfl.odd, hex.half] at this
    have ha : 1 / 2 ≤ |fl (e - 1)| := le_trans (by linarith) (neg_le_abs _)
    have hb : 1 / 2 ≤ |e - 1| := le_trans (by linarith) (neg_le_abs _)
    constructor
    · intro h; linarith
    · intro h; linarith

/-- C10: after the setup loop the field map has the same materials with the same
permittivities; material `i` holds the gas medium when the test of line 102,
`fabs(permittivity(i) - 1.) < 1e-3` with strict inequality, succeeds, and keeps
its previous medium assignment when it fails.  For a binary64 permittivity
the test as computed agrees with the exact comparison of `|permittivity - 1|`
against the binary64 value of `1e-3`. -/
theorem c10_gas_assigned_where_permittivity_is_one {M : Type} (fl : ℚ → ℚ) (gas : M)
    (fm : FieldMap M) (i : ℕ) (mat : Material M) (h : fm.materials[i]? = some mat) :
    (assignGas fl gas fm).GetNumberOfMaterials = fm.GetNumberOfMaterials ∧
    (assignGas fl gas fm).materials.map (fun m => m.eps) = fm.materials.map (fun m => m.eps) ∧
    (assignGas fl gas fm).GetPermittivity i = mat.eps ∧
    (isGas fl mat.eps ↔ |fl (mat.eps - 1)| < fl (1 / 1000)) ∧
    (isGas fl mat.eps →
      (assignGas fl gas fm).materials[i]? = some { eps := mat.eps, medium := some gas }) ∧
    (¬ isGas fl mat.eps → (assignGas fl gas fm).materials[i]? = some mat) ∧
    (RoundsToNearest fl → ExactNearOne fl → fl mat.eps = mat.eps →
      (isGas fl mat.eps ↔ |mat.eps - 1| < fl (1 / 1000))) := by
  have hi : (assignGas fl gas fm).materials[i]? =
      some { eps := mat.eps, medium := if isGas fl mat.eps then some gas else mat.medium } := by
    rw [assignGas_materials, List.getElem?_map, h]
    rfl
  refine ⟨?_, ?_, ?_, Iff.rfl, ?_, ?_, ?_⟩
  · simp [FieldMap.GetNumberOfMaterials, assignGas_materials]
  · rw [assignGas_materials, List.map_map]
    rfl
  · simp [FieldMap.GetPermittivity, hi]
  · intro hg
    rw [hi]
    simp [hg]
  · intro hg
    rw [hi]
    simp [hg]
  · intro hfl hex he
    exact isGas_iff_exact hfl hex mat.eps he

/-- Identity rounding (exact arithmetic) has the properties of `ExactNearOne`. -/
theorem exactNearOne_id : ExactNearOne id := ⟨fun _ _ _ _ => rfl, rfl⟩

/-- Witness for C10: a field map with a gas region, a dielectric, and a region
whose permittivity differs from 1 by exactly the tolerance and which already
carries a medium; the strict test fails there and the medium is kept. -/
theorem c10_gas_assigned_where_permittivity_is_one_witness :
    (assignGas id (7 : ℕ)
        { materials := [⟨1, none⟩, ⟨4, none⟩, ⟨1001 / 1000, some 3⟩] }).materials[2]? =
      some ⟨1001 / 1000, some 3⟩ :=
  (c10_gas_assigned_where_permittivity_is_one id (7 : ℕ)
    { materials := [⟨1, none⟩, ⟨4, none⟩, ⟨1001 / 1000, some 3⟩] } 2
    ⟨1001 / 1000, some 3⟩ (by simp)).2.2.2.2.2.1
    (by unfold isGas; simp only [id]; rw [abs_of_pos (by norm_num)]; norm_num)

end MicroMegas
